import Mathlib

/-!
Verification of the retrieval-fusion and agentic-control core of a
retrieval-augmented question-answering system.

The Python source is shallowly embedded: insertion-ordered dicts become
association lists, float scores become exact rationals, raised exceptions
become `Except`, and every external collaborator call (keyword search,
vector search, LLM judgment or generation, web search) becomes an explicit
argument carrying that call's outcome, so each embedded function is a pure,
total, executable Lean function.
-/

namespace RagCore

/-- A retrieved chunk: page content plus metadata key-value pairs (the two
langchain `Document` fields this code touches). -/
structure Document where
  page_content : String
  metadata : List (String × String) := []
deriving DecidableEq

/-- Python slicing `l[:k]`: a nonnegative `k` keeps the first `k` elements,
a negative `k` drops the last `|k|` elements. -/
def pyTake (l : List α) (k : ℤ) : List α :=
  if 0 ≤ k then l.take k.toNat else l.take (l.length - (-k).toNat)

/-- Python `s.strip()` with no argument: drop leading and trailing
whitespace. -/
def pyStrip (s : String) : String :=
  ⟨((s.data.dropWhile Char.isWhitespace).reverse.dropWhile Char.isWhitespace).reverse⟩

/-- Python `s.lstrip(chars)`: drop leading characters drawn from `chars`. -/
def pyLstrip (s : String) (chars : List Char) : String :=
  ⟨s.data.dropWhile (fun c => chars.contains c)⟩

/-- Python `s.lower()` (case mapping on the ASCII range, which covers every
string this code compares). -/
def pyLower (s : String) : String :=
  ⟨s.data.map Char.toLower⟩

/-- Python `pat in s`: substring containment. -/
def containsStr (s pat : String) : Bool :=
  (List.range (s.data.length + 1)).any (fun i => pat.data.isPrefixOf (s.data.drop i))

/-- `RelevanceGrader.grade`: empty evidence is immediately `"irrelevant"`;
otherwise the judgment collaborator's raw reply (or its failure) is `resp`,
and the reply counts as a yes exactly when its stripped, lowercased text
contains `"yes"`; a collaborator failure falls back to `"relevant"`. -/
def relevanceGrade (question : String) (documents : List Document)
    (resp : Except String String) : String :=
  if documents.isEmpty then "irrelevant"
  else
    match resp with
    | Except.ok content =>
        if containsStr (pyLower (pyStrip content)) "yes" then "relevant"
        else "irrelevant"
    | Except.error _ => "relevant"

/-- `ResearchRefiner.generate_queries`: split the generation collaborator's
reply into lines, keep the nonblank ones, strip each line and its leading
list markers (`lstrip("- ")` then `lstrip("123. ")`), and keep at most 3;
a collaborator failure falls back to `[question]`. -/
def generate_queries (question : String) (resp : Except String String) :
    List String :=
  match resp with
  | Except.error _ => [question]
  | Except.ok raw =>
      let content := pyStrip raw
      (((content.splitOn "\n").filter (fun q => pyStrip q ≠ "")).map
        (fun q =>
          pyLstrip (pyLstrip (pyStrip q) ['-', ' ']) ['1', '2', '3', '.', ' '])).take 3

/-- `HallucinationGrader.check_groundedness`: the judgment collaborator's
reply counts as grounded exactly when its stripped, lowercased text contains
`"yes"`; a collaborator failure fails open to `true`. -/
def check_groundedness (answer : String) (context_docs : List Document)
    (resp : Except String String) : Bool :=
  match resp with
  | Except.ok content => containsStr (pyLower (pyStrip content)) "yes"
  | Except.error _ => true

/-- The fixed refusal phrases of `AgentGraph.check_hallucination`. -/
def refusal_indicators : List String :=
  ["i don\x27t have enough information",
   "context does not contain",
   "information is not available",
   "cannot provide an answer",
   "cannot answer",
   "answer based on the context provided"]

/-- `AgentGraph.check_hallucination`, paired with the number of judgment
collaborator calls made: empty evidence short-circuits to `"grounded"`, a
refusal phrase in the lowercased answer short-circuits to `"hallucinated"`,
and only otherwise is the groundedness grader (whose single LLM call's
outcome is `resp`) consulted. -/
def check_hallucination_fn (answer : String) (documents : List Document)
    (resp : Except String String) : String × ℕ :=
  if documents.isEmpty then ("grounded", 0)
  else if refusal_indicators.any (fun ind => containsStr (pyLower answer) ind) then
    ("hallucinated", 0)
  else if check_groundedness answer documents resp then ("grounded", 1)
  else ("hallucinated", 1)

/-! ## `DocumentRetriever`: hybrid reciprocal-rank fusion and semantic search -/

/-- Association-list lookup with string keys (first match, as a Python dict
read: with unique keys the first match is the only one). -/
def lookupKey (m : List (String × β)) (key : String) : Option β :=
  match m with
  | [] => none
  | p :: ps => if p.1 = key then some p.2 else lookupKey ps key

/-- Python `key in d` for a dict modelled as an insertion-ordered
association list. -/
def hasKey (m : List (String × β)) (key : String) : Bool :=
  m.any (fun p => decide (p.1 = key))

/-- `if key not in scores: scores[key] = 0.0` followed by
`scores[key] += v`, with dict insertion-order semantics: an existing key
keeps its position, a new key is appended. -/
def bumpScore (m : List (String × ℚ)) (key : String) (v : ℚ) :
    List (String × ℚ) :=
  if hasKey m key then
    m.map (fun p => if p.1 = key then (p.1, p.2 + v) else p)
  else m ++ [(key, v)]

/-- `doc_map[key] = doc` (overwrite, keeping the key's position). -/
def setDoc (m : List (String × Document)) (key : String) (d : Document) :
    List (String × Document) :=
  if hasKey m key then
    m.map (fun p => if p.1 = key then (p.1, d) else p)
  else m ++ [(key, d)]

/-- `if key not in doc_map: doc_map[key] = doc`. -/
def setDocIfAbsent (m : List (String × Document)) (key : String)
    (d : Document) : List (String × Document) :=
  if hasKey m key then m else m ++ [(key, d)]

/-- The RRF constant `c = 60` of `_retrieve_hybrid`. -/
def rrf_c : ℚ := 60

/-- RRF contribution `1.0 / (c + rank + 1)` of a 0-based `rank` (float
arithmetic modelled exactly, as rationals). -/
def contrib (rank : ℕ) : ℚ := 1 / (rrf_c + rank + 1)

/-- The BM25 loop of `_retrieve_hybrid`: score each document by its rank and
record it in `doc_map` (overwriting). -/
def processBM25 : List Document → ℕ → List (String × ℚ) × List (String × Document) →
    List (String × ℚ) × List (String × Document)
  | [], _, sm => sm
  | d :: ds, rank, (s, m) =>
      processBM25 ds (rank + 1)
        (bumpScore s d.page_content (contrib rank), setDoc m d.page_content d)

/-- The semantic-results loop of `_retrieve_hybrid`: score each document by
its rank and record it in `doc_map` only if its content is new. -/
def processVec : List Document → ℕ → List (String × ℚ) × List (String × Document) →
    List (String × ℚ) × List (String × Document)
  | [], _, sm => sm
  | d :: ds, rank, (s, m) =>
      processVec ds (rank + 1)
        (bumpScore s d.page_content (contrib rank), setDocIfAbsent m d.page_content d)

/-- The `scores` and `doc_map` dicts of `_retrieve_hybrid` after both
loops. -/
def fusedMaps (bm25_docs vector_results : List Document) :
    List (String × ℚ) × List (String × Document) :=
  processVec vector_results 0 (processBM25 bm25_docs 0 ([], []))

/-- One step of stable descending insertion: `x` goes in front of the first
entry whose score does not exceed its own, so earlier-seen entries win
ties. -/
def insertDesc (x : String × ℚ) : List (String × ℚ) → List (String × ℚ)
  | [] => [x]
  | y :: ys => if y.2 ≤ x.2 then x :: y :: ys else y :: insertDesc x ys

/-- `sorted(scores.items(), key=lambda x: x[1], reverse=True)`: Python's
sort is stable, and a stable descending sort is unique, so stable insertion
sort embeds it exactly. -/
def sortDesc : List (String × ℚ) → List (String × ℚ)
  | [] => []
  | x :: xs => insertDesc x (sortDesc xs)

/-- `DocumentRetriever._retrieve_hybrid`, given the two collaborators'
result lists. `k` is an integer because the final `sorted_docs[:k]` is a
Python slice, which accepts negative bounds. -/
def retrieve_hybrid (bm25_docs vector_results : List Document) (k : ℤ) :
    List Document :=
  let sm := fusedMaps bm25_docs vector_results
  (pyTake (sortDesc sm.1) k).filterMap (fun p => lookupKey sm.2 p.1)

/-- `_retrieve_hybrid` with the collaborator outcomes explicit: the keyword
search is issued first, then the vector search, and a raised exception
propagates to the caller — the method installs no handler. -/
def retrieve_hybrid_exc (bm25Res vecRes : Except String (List Document))
    (k : ℤ) : Except String (List Document) :=
  match bm25Res with
  | Except.error e => Except.error e
  | Except.ok bm25 =>
      match vecRes with
      | Except.error e => Except.error e
      | Except.ok vec => Except.ok (retrieve_hybrid bm25 vec k)

/-- `DocumentRetriever._retrieve_semantic`, given the scored vector-search
results: keep exactly the documents whose score reaches
`similarity_threshold`, in order. -/
def retrieve_semantic (results : List (Document × ℚ))
    (similarity_threshold : ℚ) : List Document :=
  (results.filter (fun p => similarity_threshold ≤ p.2)).map Prod.fst

/-- The similarity floor's default, `float(os.getenv("SIMILARITY_THRESHOLD",
"0.7"))`. -/
def default_similarity_threshold : ℚ := 7 / 10

/-- `DocumentRetriever.retrieve`: hybrid search when a BM25 index is
configured (`bm25_docs = some _`, carrying that collaborator's results),
semantic-only otherwise. The two vector arguments mirror the two different
vector-store calls the two paths make (`similarity_search` without scores,
`similarity_search_with_score` with them). -/
def retrieve_fn (bm25_docs : Option (List Document))
    (scored_results : List (Document × ℚ)) (vector_results : List Document)
    (similarity_threshold : ℚ) (k : ℤ) : List Document :=
  match bm25_docs with
  | some bd => retrieve_hybrid bd vector_results k
  | none => retrieve_semantic scored_results similarity_threshold

/-! ## `AgentGraph`: the LangGraph workflow as an explicit state machine -/

/-- The control-relevant fields of `AgentState` (the `messages` transcript,
formatted `context` string and `context_used` counter are presentation-only
and drive no edge). -/
structure GState where
  question : String
  documents : List Document
  retry_count : ℕ
  answer : String
  sources : List (String × String)
  research_queries : List String
  is_web : Bool
  hallucination_grade : String
deriving DecidableEq

/-- The graph's nodes, plus `done` for LangGraph's `END`. -/
inductive Node where
  | retrieve
  | grade_documents
  | generate
  | transform_query
  | plan_research
  | web_search
  | synthesize_research
  | check_hallucination
  | done
deriving DecidableEq

/-- The hardcoded `max_retries = 1` of `decide_to_generate`. -/
def max_retries : ℕ := 1

/-- `AgentGraph.decide_to_generate`. -/
def decide_to_generate (st : GState) : String :=
  if st.documents.isEmpty then
    if st.retry_count < max_retries then "transform_query" else "plan_research"
  else "generate"

/-- `AgentGraph.decide_after_check` (in the running graph the
`hallucination_grade` field is always set by `check_hallucination` before
this decision runs; the source's `.get(..., "grounded")` default is for a
key that is then never missing). -/
def decide_after_check (st : GState) : String :=
  if st.hallucination_grade = "grounded" then "end"
  else if st.is_web then "end"
  else "plan_research"

/-- The conditional-edge table attached to `grade_documents`. -/
def gradeEdgeTarget (st : GState) : Node :=
  match decide_to_generate st with
  | "transform_query" => Node.transform_query
  | "generate" => Node.generate
  | _ => Node.plan_research

/-- The conditional-edge table attached to `check_hallucination`
(`"end" ↦ END`, `"plan_research" ↦ plan_research`). -/
def afterCheckTarget (st : GState) : Node :=
  if decide_after_check st = "end" then Node.done else Node.plan_research

/-- `AgentGraph.transform_query`: append the fixed broadening phrase and
count the retry. -/
def transform_query_node (st : GState) : GState :=
  { st with question := st.question ++ " overview details",
            retry_count := st.retry_count + 1 }

/-- The collaborators the graph's nodes call, each as a function from that
call's inputs to its outcome. -/
structure Env where
  retrieveDocs : String → List Document
  gradeResp : String → List Document → Except String String
  generateAnswer : String → List Document → String × List (String × String)
  groundResp : String → List Document → Except String String
  planResp : String → Except String String
  webDocs : List String → List Document
  synthAnswer : String → List Document → String

/-- One node execution followed by that node's (possibly conditional)
outgoing edge, exactly as the graph is wired in `AgentGraph.__init__`. -/
def stepNode (env : Env) : Node → GState → Node × GState
  | Node.retrieve, st =>
      (Node.grade_documents, { st with documents := env.retrieveDocs st.question })
  | Node.grade_documents, st =>
      let g := relevanceGrade st.question st.documents
        (env.gradeResp st.question st.documents)
      let st' := if g = "irrelevant" then { st with documents := [] } else st
      (gradeEdgeTarget st', st')
  | Node.transform_query, st => (Node.retrieve, transform_query_node st)
  | Node.generate, st =>
      let r := env.generateAnswer st.question st.documents
      (Node.check_hallucination, { st with answer := r.1, sources := r.2 })
  | Node.check_hallucination, st =>
      let g := (check_hallucination_fn st.answer st.documents
        (env.groundResp st.answer st.documents)).1
      let st' := { st with hallucination_grade := g }
      (afterCheckTarget st', st')
  | Node.plan_research, st =>
      (Node.web_search,
        { st with research_queries :=
            generate_queries st.question (env.planResp st.question) })
  | Node.web_search, st =>
      let queries := if st.research_queries.isEmpty then [st.question]
        else st.research_queries
      (Node.synthesize_research,
        { st with documents := env.webDocs queries, is_web := true })
  | Node.synthesize_research, st =>
      (Node.done,
        { st with answer := env.synthAnswer st.question st.documents,
                  sources := st.documents.map
                    (fun d => ("Web Search", (lookupKey d.metadata "page").getD "")) })
  | Node.done, st => (Node.done, st)

/-- The fresh per-question state (missing LangGraph keys read through
`.get` defaults: `retry_count = 0`, `is_web = False`). -/
def initState (q : String) : GState :=
  { question := q, documents := [], retry_count := 0, answer := "",
    sources := [], research_queries := [], is_web := false,
    hallucination_grade := "" }

/-- `n` workflow steps from a configuration. -/
def runN (env : Env) (p : Node × GState) : ℕ → Node × GState
  | 0 => p
  | n + 1 => runN env (stepNode env p.1 p.2) n

/-- The node the workflow is at after `n` steps from the entry point. -/
def nodeAt (env : Env) (q : String) (n : ℕ) : Node :=
  (runN env (Node.retrieve, initState q) n).1

/-! ## Concrete chunks used by counterexamples and witnesses -/

def docA : Document := { page_content := "alpha" }

def docB : Document := { page_content := "beta" }

def docC : Document := { page_content := "gamma" }

def docD : Document := { page_content := "delta" }

/-- A concrete state with the verdict `hallucinated` and the web-fallback
flag set, for the C5 witness. -/
def stHalluWeb : GState :=
  { initState "q" with
      hallucination_grade := "hallucinated",
      is_web := true }

/-- A concrete collaborator environment in which retrieval always comes back
empty, the relevance judge replies `"no"`, and research collaborators are
down, for the C4 witness. -/
def envEmpty : Env :=
  { retrieveDocs := fun _ => []
  , gradeResp := fun _ _ => Except.ok "no"
  , generateAnswer := fun _ _ => ("", [])
  , groundResp := fun _ _ => Except.ok "yes"
  , planResp := fun _ => Except.error "research collaborator down"
  , webDocs := fun _ => []
  , synthAnswer := fun _ _ => "" }

/-! ## Proof-side views of the fusion loops (not part of the source) -/

/-- The `scores` component of either fusion loop: the document maps do not
feed back into the scores, so both loops act on `scores` identically. -/
def scoreFold : List Document → ℕ → List (String × ℚ) → List (String × ℚ)
  | [], _, s => s
  | d :: ds, rank, s => scoreFold ds (rank + 1) (bumpScore s d.page_content (contrib rank))

/-- 0-based index of the first document with the given content. -/
def idxOfKey (l : List Document) (key : String) : Option ℕ :=
  match l with
  | [] => none
  | d :: ds =>
      if d.page_content = key then some 0 else (idxOfKey ds key).map (· + 1)

/-- The reciprocal-rank contribution one ranked list owes a content key:
`1/(60 + r)` at 1-based rank `r` (`contrib i` at 0-based index `i`), `0` if
the list does not contain the key. -/
def listContrib (l : List Document) (key : String) : ℚ :=
  match idxOfKey l key with
  | some i => contrib i
  | none => 0

/-- `listContrib` shifted to a loop that starts counting ranks at `r0`. -/
def listContribFrom (l : List Document) (r0 : ℕ) (key : String) : ℚ :=
  match idxOfKey l key with
  | some i => contrib (r0 + i)
  | none => 0

/-! ## Supporting lemmas: dicts as insertion-ordered association lists -/

theorem lookupKey_nil (key : String) : lookupKey ([] : List (String × β)) key = none := rfl

theorem lookupKey_cons (p : String × β) (ps : List (String × β)) (key : String) :
    lookupKey (p :: ps) key = if p.1 = key then some p.2 else lookupKey ps key := rfl

theorem hasKey_iff (m : List (String × β)) (key : String) :
    hasKey m key = true ↔ key ∈ m.map Prod.fst := by
  simp [hasKey, List.any_eq_true, List.mem_map]

theorem lookupKey_eq_none (m : List (String × β)) (key : String)
    (h : key ∉ m.map Prod.fst) : lookupKey m key = none := by
  induction m with
  | nil => rfl
  | cons p ps ih =>
      simp only [List.map_cons, List.mem_cons] at h
      push_neg at h
      have hne : p.1 ≠ key := fun hh => h.1 hh.symm
      simp [lookupKey_cons, hne, ih h.2]

theorem lookupKey_append_of_notMem (m l : List (String × β)) (key : String)
    (h : key ∉ m.map Prod.fst) : lookupKey (m ++ l) key = lookupKey l key := by
  induction m with
  | nil => rfl
  | cons p ps ih =>
      simp only [List.map_cons, List.mem_cons] at h
      push_neg at h
      have hne : p.1 ≠ key := fun hh => h.1 hh.symm
      simp [lookupKey_cons, hne, ih h.2]

theorem lookupKey_mem (m : List (String × β)) (key : String) (v : β)
    (h : lookupKey m key = some v) : (key, v) ∈ m := by
  induction m with
  | nil => simp [lookupKey_nil] at h
  | cons p ps ih =>
      obtain ⟨a, b⟩ := p
      rw [lookupKey_cons] at h
      by_cases hp : a = key
      · subst hp
        rw [if_pos rfl] at h
        injection h with h
        subst h
        exact List.mem_cons_self _ _
      · rw [if_neg hp] at h
        exact List.mem_cons_of_mem _ (ih h)

theorem lookupKey_isSome (m : List (String × β)) (key : String)
    (h : key ∈ m.map Prod.fst) : ∃ v, lookupKey m key = some v := by
  induction m with
  | nil => simp at h
  | cons p ps ih =>
      rw [lookupKey_cons]
      by_cases hp : p.1 = key
      · exact ⟨p.2, if_pos hp⟩
      · rw [if_neg hp]
        apply ih
        simp only [List.map_cons, List.mem_cons] at h
        rcases h with h | h
        · exact absurd h.symm hp
        · exact h

/-- `bumpScore` keeps an existing key's position and value-updates it, or
appends a new key. -/
theorem bumpScore_keys (m : List (String × ℚ)) (key : String) (v : ℚ) :
    (bumpScore m key v).map Prod.fst =
      if key ∈ m.map Prod.fst then m.map Prod.fst else m.map Prod.fst ++ [key] := by
  by_cases h : key ∈ m.map Prod.fst
  · rw [if_pos h]
    rw [bumpScore, if_pos ((hasKey_iff m key).mpr h)]
    rw [List.map_map]
    apply List.map_congr_left
    intro p _
    by_cases hp : p.1 = key <;> simp [hp]
  · rw [if_neg h]
    rw [bumpScore, if_neg]
    · simp
    · intro hk
      exact h ((hasKey_iff m key).mp hk)

theorem lookupKey_update_map_self (m : List (String × ℚ)) (key : String) (v : ℚ)
    (hmem : key ∈ m.map Prod.fst) :
    lookupKey (m.map (fun p => if p.1 = key then (p.1, p.2 + v) else p)) key
      = some ((lookupKey m key).getD 0 + v) := by
  induction m with
  | nil => simp at hmem
  | cons p ps ih =>
      by_cases hp : p.1 = key
      · simp [lookupKey_cons, hp]
      · have hps : key ∈ ps.map Prod.fst := by
          simp only [List.map_cons, List.mem_cons] at hmem
          rcases hmem with hh | hh
          · exact absurd hh.symm hp
          · exact hh
        simp [lookupKey_cons, hp, ih hps]

theorem lookupKey_append (m l : List (String × β)) (key : String) :
    lookupKey (m ++ l) key =
      match lookupKey m key with
      | some v => some v
      | none => lookupKey l key := by
  induction m with
  | nil => rfl
  | cons p ps ih =>
      rw [List.cons_append, lookupKey_cons, lookupKey_cons]
      by_cases hp : p.1 = key
      · rw [if_pos hp, if_pos hp]
      · rw [if_neg hp, if_neg hp, ih]

theorem lookupKey_update_map_ne (m : List (String × ℚ)) (key key' : String)
    (v : ℚ) (h : key' ≠ key) :
    lookupKey (m.map (fun p => if p.1 = key then (p.1, p.2 + v) else p)) key'
      = lookupKey m key' := by
  induction m with
  | nil => rfl
  | cons p ps ih =>
      rw [List.map_cons]
      by_cases hp : p.1 = key
      · have h2 : p.1 ≠ key' := by rw [hp]; exact Ne.symm h
        rw [if_pos hp, lookupKey_cons, lookupKey_cons, if_neg h2, if_neg h2, ih]
      · by_cases hq : p.1 = key'
        · rw [if_neg hp, lookupKey_cons, lookupKey_cons, if_pos hq, if_pos hq]
        · rw [if_neg hp, lookupKey_cons, lookupKey_cons, if_neg hq, if_neg hq, ih]

theorem lookupKey_bumpScore_self (m : List (String × ℚ)) (key : String) (v : ℚ) :
    lookupKey (bumpScore m key v) key = some ((lookupKey m key).getD 0 + v) := by
  by_cases h : hasKey m key = true
  · rw [bumpScore, if_pos h]
    exact lookupKey_update_map_self m key v ((hasKey_iff m key).mp h)
  · rw [bumpScore, if_neg h]
    have hnm : key ∉ m.map Prod.fst := fun hk => h ((hasKey_iff m key).mpr hk)
    rw [lookupKey_append_of_notMem _ _ _ hnm, lookupKey_eq_none m key hnm]
    simp [lookupKey_cons]

theorem lookupKey_bumpScore_ne (m : List (String × ℚ)) (key key' : String) (v : ℚ)
    (h : key' ≠ key) : lookupKey (bumpScore m key v) key' = lookupKey m key' := by
  rw [bumpScore]
  by_cases hk : hasKey m key = true
  · rw [if_pos hk]
    exact lookupKey_update_map_ne m key key' v h
  · rw [if_neg hk, lookupKey_append]
    have hsingle : lookupKey [(key, v)] key' = none := by
      have hne : (key, v).1 ≠ key' := fun hh => h hh.symm
      simp [lookupKey_cons, hne, lookupKey_nil]
    rw [hsingle]
    cases lookupKey m key' <;> rfl

theorem setDoc_keys (m : List (String × Document)) (key : String) (d : Document) :
    (setDoc m key d).map Prod.fst =
      if key ∈ m.map Prod.fst then m.map Prod.fst else m.map Prod.fst ++ [key] := by
  by_cases h : key ∈ m.map Prod.fst
  · rw [if_pos h, setDoc, if_pos ((hasKey_iff m key).mpr h), List.map_map]
    apply List.map_congr_left
    intro p _
    by_cases hp : p.1 = key <;> simp [hp]
  · rw [if_neg h, setDoc, if_neg (fun hk => h ((hasKey_iff m key).mp hk))]
    simp

theorem setDocIfAbsent_keys (m : List (String × Document)) (key : String)
    (d : Document) :
    (setDocIfAbsent m key d).map Prod.fst =
      if key ∈ m.map Prod.fst then m.map Prod.fst else m.map Prod.fst ++ [key] := by
  by_cases h : key ∈ m.map Prod.fst
  · rw [if_pos h, setDocIfAbsent, if_pos ((hasKey_iff m key).mpr h)]
  · rw [if_neg h, setDocIfAbsent, if_neg (fun hk => h ((hasKey_iff m key).mp hk))]
    simp

theorem contentKeyed_setDoc (m : List (String × Document)) (key : String)
    (d : Document) (hck : ∀ p ∈ m, (p.2 : Document).page_content = p.1)
    (hd : d.page_content = key) :
    ∀ p ∈ setDoc m key d, (p.2 : Document).page_content = p.1 := by
  intro p hp
  rw [setDoc] at hp
  by_cases h : hasKey m key = true
  · rw [if_pos h] at hp
    rcases List.mem_map.mp hp with ⟨q, hq, rfl⟩
    by_cases hq1 : q.1 = key
    · simp only [if_pos hq1]
      rw [hd, hq1]
    · simp only [if_neg hq1]
      exact hck q hq
  · rw [if_neg h] at hp
    rcases List.mem_append.mp hp with hq | hq
    · exact hck p hq
    · simp only [List.mem_singleton] at hq
      subst hq
      exact hd

theorem contentKeyed_setDocIfAbsent (m : List (String × Document)) (key : String)
    (d : Document) (hck : ∀ p ∈ m, (p.2 : Document).page_content = p.1)
    (hd : d.page_content = key) :
    ∀ p ∈ setDocIfAbsent m key d, (p.2 : Document).page_content = p.1 := by
  intro p hp
  rw [setDocIfAbsent] at hp
  by_cases h : hasKey m key = true
  · rw [if_pos h] at hp
    exact hck p hp
  · rw [if_neg h] at hp
    rcases List.mem_append.mp hp with hq | hq
    · exact hck p hq
    · simp only [List.mem_singleton] at hq
      subst hq
      exact hd

/-- Every key the score dict holds, the document dict holds too, and every
document is filed under its own content — the joint invariant both fusion
loops maintain. -/
theorem processBM25_invariant (l : List Document) (r : ℕ)
    (p : List (String × ℚ) × List (String × Document))
    (hck : ∀ q ∈ p.2, (q.2 : Document).page_content = q.1)
    (hsub : ∀ key ∈ p.1.map Prod.fst, key ∈ p.2.map Prod.fst) :
    (∀ q ∈ (processBM25 l r p).2, (q.2 : Document).page_content = q.1)
    ∧ (∀ key ∈ (processBM25 l r p).1.map Prod.fst,
        key ∈ (processBM25 l r p).2.map Prod.fst) := by
  induction l generalizing r p with
  | nil => exact ⟨hck, hsub⟩
  | cons d ds ih =>
      obtain ⟨s, m⟩ := p
      apply ih
      · exact contentKeyed_setDoc m d.page_content d hck rfl
      · intro key hkey
        rw [bumpScore_keys] at hkey
        rw [setDoc_keys]
        by_cases hm : d.page_content ∈ m.map Prod.fst
        · rw [if_pos hm]
          by_cases hs : d.page_content ∈ s.map Prod.fst
          · rw [if_pos hs] at hkey
            exact hsub key hkey
          · rw [if_neg hs] at hkey
            rcases List.mem_append.mp hkey with hk | hk
            · exact hsub key hk
            · simp only [List.mem_singleton] at hk
              subst hk
              exact hm
        · rw [if_neg hm]
          by_cases hs : d.page_content ∈ s.map Prod.fst
          · rw [if_pos hs] at hkey
            exact List.mem_append_left _ (hsub key hkey)
          · rw [if_neg hs] at hkey
            rcases List.mem_append.mp hkey with hk | hk
            · exact List.mem_append_left _ (hsub key hk)
            · exact List.mem_append_right _ hk

theorem processVec_invariant (l : List Document) (r : ℕ)
    (p : List (String × ℚ) × List (String × Document))
    (hck : ∀ q ∈ p.2, (q.2 : Document).page_content = q.1)
    (hsub : ∀ key ∈ p.1.map Prod.fst, key ∈ p.2.map Prod.fst) :
    (∀ q ∈ (processVec l r p).2, (q.2 : Document).page_content = q.1)
    ∧ (∀ key ∈ (processVec l r p).1.map Prod.fst,
        key ∈ (processVec l r p).2.map Prod.fst) := by
  induction l generalizing r p with
  | nil => exact ⟨hck, hsub⟩
  | cons d ds ih =>
      obtain ⟨s, m⟩ := p
      apply ih
      · exact contentKeyed_setDocIfAbsent m d.page_content d hck rfl
      · intro key hkey
        rw [bumpScore_keys] at hkey
        rw [setDocIfAbsent_keys]
        by_cases hm : d.page_content ∈ m.map Prod.fst
        · rw [if_pos hm]
          by_cases hs : d.page_content ∈ s.map Prod.fst
          · rw [if_pos hs] at hkey
            exact hsub key hkey
          · rw [if_neg hs] at hkey
            rcases List.mem_append.mp hkey with hk | hk
            · exact hsub key hk
            · simp only [List.mem_singleton] at hk
              subst hk
              exact hm
        · rw [if_neg hm]
          by_cases hs : d.page_content ∈ s.map Prod.fst
          · rw [if_pos hs] at hkey
            exact List.mem_append_left _ (hsub key hkey)
          · rw [if_neg hs] at hkey
            rcases List.mem_append.mp hkey with hk | hk
            · exact List.mem_append_left _ (hsub key hk)
            · exact List.mem_append_right _ hk

/-- The fused maps satisfy the joint invariant: every scored key is filed in
`doc_map` under a document whose content is that key. -/
theorem fusedMaps_covered (b v : List Document) :
    ∀ key ∈ (fusedMaps b v).1.map Prod.fst,
      ∃ d, lookupKey (fusedMaps b v).2 key = some d ∧ d.page_content = key := by
  intro key hkey
  have hb := processBM25_invariant b 0 ([], [])
    (by intro q hq; simp at hq) (by intro k hk; simp at hk)
  have hv := processVec_invariant v 0 (processBM25 b 0 ([], [])) hb.1 hb.2
  have hmem : key ∈ (fusedMaps b v).2.map Prod.fst := hv.2 key hkey
  obtain ⟨d, hd⟩ := lookupKey_isSome _ key hmem
  refine ⟨d, hd, ?_⟩
  exact hv.1 (key, d) (lookupKey_mem _ key d hd)

theorem processBM25_fst (l : List Document) (r : ℕ)
    (p : List (String × ℚ) × List (String × Document)) :
    (processBM25 l r p).1 = scoreFold l r p.1 := by
  induction l generalizing r p with
  | nil => rfl
  | cons d ds ih =>
      obtain ⟨s, m⟩ := p
      exact ih (r + 1) _

theorem processVec_fst (l : List Document) (r : ℕ)
    (p : List (String × ℚ) × List (String × Document)) :
    (processVec l r p).1 = scoreFold l r p.1 := by
  induction l generalizing r p with
  | nil => rfl
  | cons d ds ih =>
      obtain ⟨s, m⟩ := p
      exact ih (r + 1) _

theorem fusedMaps_fst (b v : List Document) :
    (fusedMaps b v).1 = scoreFold v 0 (scoreFold b 0 []) := by
  rw [fusedMaps, processVec_fst, processBM25_fst]

/-! ## Supporting lemmas: the stable descending sort -/

theorem insertDesc_perm (x : String × ℚ) (l : List (String × ℚ)) :
    List.Perm (insertDesc x l) (x :: l) := by
  induction l with
  | nil => exact List.Perm.refl _
  | cons y ys ih =>
      simp only [insertDesc]
      by_cases h : y.2 ≤ x.2
      · rw [if_pos h]
      · rw [if_neg h]
        exact (List.Perm.cons y ih).trans (List.Perm.swap x y ys)

theorem sortDesc_perm (s : List (String × ℚ)) :
    List.Perm (sortDesc s) s := by
  induction s with
  | nil => exact List.Perm.refl _
  | cons x xs ih =>
      simp only [sortDesc]
      exact (insertDesc_perm x (sortDesc xs)).trans (List.Perm.cons x ih)

theorem sortDesc_length (s : List (String × ℚ)) :
    (sortDesc s).length = s.length :=
  (sortDesc_perm s).length_eq

theorem mem_insertDesc (a x : String × ℚ) (l : List (String × ℚ)) :
    a ∈ insertDesc x l ↔ a = x ∨ a ∈ l := by
  rw [(insertDesc_perm x l).mem_iff, List.mem_cons]

theorem insertDesc_sorted (x : String × ℚ) (l : List (String × ℚ))
    (hl : List.Pairwise (fun p q => q.2 ≤ p.2) l) :
    List.Pairwise (fun p q => q.2 ≤ p.2) (insertDesc x l) := by
  induction l with
  | nil => simp [insertDesc]
  | cons y ys ih =>
      simp only [insertDesc]
      by_cases h : y.2 ≤ x.2
      · rw [if_pos h]
        refine List.pairwise_cons.mpr ⟨?_, hl⟩
        intro z hz
        rcases List.mem_cons.mp hz with rfl | hz
        · exact h
        · exact le_trans ((List.pairwise_cons.mp hl).1 z hz) h
      · rw [if_neg h]
        refine List.pairwise_cons.mpr ⟨?_, ih (List.pairwise_cons.mp hl).2⟩
        intro z hz
        rcases (mem_insertDesc z x ys).mp hz with rfl | hz
        · exact le_of_lt (lt_of_not_le h)
        · exact (List.pairwise_cons.mp hl).1 z hz

theorem sortDesc_sorted (s : List (String × ℚ)) :
    List.Pairwise (fun p q => q.2 ≤ p.2) (sortDesc s) := by
  induction s with
  | nil => simp [sortDesc]
  | cons x xs ih =>
      simp only [sortDesc]
      exact insertDesc_sorted x (sortDesc xs) ih

theorem insertDesc_filter (x : String × ℚ) (l : List (String × ℚ)) (v : ℚ)
    (hl : List.Pairwise (fun p q => q.2 ≤ p.2) l) :
    (insertDesc x l).filter (fun p => decide (p.2 = v))
      = if x.2 = v then x :: l.filter (fun p => decide (p.2 = v))
        else l.filter (fun p => decide (p.2 = v)) := by
  induction l with
  | nil =>
      simp only [insertDesc]
      by_cases hx : x.2 = v <;> simp [hx]
  | cons y ys ih =>
      simp only [insertDesc]
      by_cases h : y.2 ≤ x.2
      · rw [if_pos h]
        by_cases hx : x.2 = v <;> simp [List.filter_cons, hx]
      · have hxy : x.2 < y.2 := lt_of_not_le h
        rw [if_neg h, List.filter_cons, ih (List.pairwise_cons.mp hl).2]
        by_cases hx : x.2 = v
        · have hyv : ¬(y.2 = v) := by
            rw [← hx]
            exact ne_of_gt hxy
          simp [hx, hyv, List.filter_cons]
        · simp [hx, List.filter_cons]

theorem sortDesc_filter (s : List (String × ℚ)) (v : ℚ) :
    (sortDesc s).filter (fun p => decide (p.2 = v))
      = s.filter (fun p => decide (p.2 = v)) := by
  induction s with
  | nil => rfl
  | cons x xs ih =>
      simp only [sortDesc]
      rw [insertDesc_filter x (sortDesc xs) v (sortDesc_sorted xs), ih,
        List.filter_cons]
      by_cases hx : x.2 = v <;> simp [hx]

/-! ## Supporting lemmas: fused scores -/

theorem idxOfKey_cons (d : Document) (ds : List Document) (key : String) :
    idxOfKey (d :: ds) key =
      if d.page_content = key then some 0 else (idxOfKey ds key).map (· + 1) := rfl

theorem listContrib_eq (l : List Document) (key : String) :
    listContrib l key =
      match idxOfKey l key with
      | some i => contrib i
      | none => 0 := rfl

theorem listContribFrom_eq (l : List Document) (r0 : ℕ) (key : String) :
    listContribFrom l r0 key =
      match idxOfKey l key with
      | some i => contrib (r0 + i)
      | none => 0 := rfl

theorem listContribFrom_zero (l : List Document) (key : String) :
    listContribFrom l 0 key = listContrib l key := by
  rw [listContribFrom_eq, listContrib_eq]
  cases idxOfKey l key with
  | none => rfl
  | some i => simp

theorem bumpScore_keys_nodup (m : List (String × ℚ)) (key : String) (v : ℚ)
    (h : (m.map Prod.fst).Nodup) :
    ((bumpScore m key v).map Prod.fst).Nodup := by
  rw [bumpScore_keys]
  by_cases hm : key ∈ m.map Prod.fst
  · rw [if_pos hm]
    exact h
  · rw [if_neg hm]
    simp [List.nodup_append, h, hm]

theorem scoreFold_keys_nodup (l : List Document) (r : ℕ)
    (s : List (String × ℚ)) (h : (s.map Prod.fst).Nodup) :
    ((scoreFold l r s).map Prod.fst).Nodup := by
  induction l generalizing r s with
  | nil => exact h
  | cons d ds ih =>
      simp only [scoreFold]
      exact ih (r + 1) _ (bumpScore_keys_nodup s d.page_content (contrib r) h)

theorem scoreFold_lookup_notMem (l : List Document) (r : ℕ)
    (s : List (String × ℚ)) (key : String)
    (h : key ∉ l.map Document.page_content) :
    lookupKey (scoreFold l r s) key = lookupKey s key := by
  induction l generalizing r s with
  | nil => rfl
  | cons d ds ih =>
      simp only [List.map_cons, List.mem_cons] at h
      push_neg at h
      simp only [scoreFold]
      rw [ih _ _ h.2, lookupKey_bumpScore_ne _ _ _ _ h.1]

theorem scoreFold_lookup (l : List Document) (r : ℕ) (s : List (String × ℚ))
    (key : String) (hnd : (l.map Document.page_content).Nodup) :
    (lookupKey (scoreFold l r s) key).getD 0
      = (lookupKey s key).getD 0 + listContribFrom l r key := by
  induction l generalizing r s with
  | nil => simp [scoreFold, listContribFrom_eq, idxOfKey]
  | cons d ds ih =>
      simp only [List.map_cons, List.nodup_cons] at hnd
      simp only [scoreFold]
      by_cases h : d.page_content = key
      · have hnotin : key ∉ ds.map Document.page_content := by
          rw [← h]
          exact hnd.1
        rw [scoreFold_lookup_notMem ds (r + 1) _ key hnotin, h,
          lookupKey_bumpScore_self]
        rw [listContribFrom_eq, idxOfKey_cons, if_pos h]
        simp [contrib]
      · rw [ih (r + 1) _ hnd.2,
          lookupKey_bumpScore_ne _ _ _ _ (fun hh => h hh.symm)]
        congr 1
        rw [listContribFrom_eq, listContribFrom_eq, idxOfKey_cons, if_neg h]
        cases idxOfKey ds key with
        | none => rfl
        | some i =>
            show contrib (r + 1 + i) = contrib (r + (i + 1))
            congr 1
            omega

theorem fusedMaps_score (b v : List Document) (key : String)
    (h1 : (b.map Document.page_content).Nodup)
    (h2 : (v.map Document.page_content).Nodup) :
    (lookupKey (fusedMaps b v).1 key).getD 0
      = listContrib b key + listContrib v key := by
  rw [fusedMaps_fst, scoreFold_lookup v 0 _ key h2,
    scoreFold_lookup b 0 [] key h1, lookupKey_nil]
  simp only [Option.getD_none, zero_add]
  rw [listContribFrom_zero, listContribFrom_zero]

theorem scoreFold_keys_disjoint (l : List Document) (r : ℕ)
    (s : List (String × ℚ)) (hnd : (l.map Document.page_content).Nodup)
    (hdis : ∀ c ∈ l.map Document.page_content, c ∉ s.map Prod.fst) :
    (scoreFold l r s).map Prod.fst
      = s.map Prod.fst ++ l.map Document.page_content := by
  induction l generalizing r s with
  | nil => simp [scoreFold]
  | cons d ds ih =>
      simp only [List.map_cons, List.nodup_cons] at hnd
      have hd0 : d.page_content ∉ s.map Prod.fst :=
        hdis d.page_content (by simp)
      have hkeys : (bumpScore s d.page_content (contrib r)).map Prod.fst
          = s.map Prod.fst ++ [d.page_content] := by
        rw [bumpScore_keys, if_neg hd0]
      have hdis2 : ∀ c ∈ ds.map Document.page_content,
          c ∉ (bumpScore s d.page_content (contrib r)).map Prod.fst := by
        intro c hc
        rw [hkeys]
        intro hmem
        rcases List.mem_append.mp hmem with hm | hm
        · exact hdis c (by simp [hc]) hm
        · simp only [List.mem_singleton] at hm
          subst hm
          exact hnd.1 hc
      simp only [scoreFold]
      rw [ih (r + 1) _ hnd.2 hdis2, hkeys]
      simp

theorem fusedMaps_keys_disjoint (b v : List Document)
    (h1 : (b.map Document.page_content).Nodup)
    (h2 : (v.map Document.page_content).Nodup)
    (hdis : ∀ d ∈ b, ∀ e ∈ v, d.page_content ≠ e.page_content) :
    (fusedMaps b v).1.map Prod.fst
      = b.map Document.page_content ++ v.map Document.page_content := by
  rw [fusedMaps_fst]
  have hb : (scoreFold b 0 []).map Prod.fst
      = b.map Document.page_content := by
    have := scoreFold_keys_disjoint b 0 [] h1 (by intro c _ hc; simp at hc)
    simpa using this
  have hdis2 : ∀ c ∈ v.map Document.page_content,
      c ∉ (scoreFold b 0 []).map Prod.fst := by
    intro c hc
    rw [hb]
    intro hmem
    rcases List.mem_map.mp hmem with ⟨d, hd, hdc⟩
    rcases List.mem_map.mp hc with ⟨e, he, hec⟩
    exact hdis d hd e he (hdc.trans hec.symm)
  rw [scoreFold_keys_disjoint v 0 _ h2 hdis2, hb]

theorem fusedMaps_keys_nodup (b v : List Document) :
    ((fusedMaps b v).1.map Prod.fst).Nodup := by
  rw [fusedMaps_fst]
  exact scoreFold_keys_nodup v 0 _ (scoreFold_keys_nodup b 0 [] (by simp))

theorem filterMap_lookup (l : List (String × ℚ)) (m : List (String × Document))
    (hcov : ∀ p ∈ l, ∃ d, lookupKey m p.1 = some d ∧ d.page_content = p.1) :
    ((l.filterMap (fun p => lookupKey m p.1)).map Document.page_content
        = l.map Prod.fst)
    ∧ (l.filterMap (fun p => lookupKey m p.1)).length = l.length := by
  induction l with
  | nil => exact ⟨rfl, rfl⟩
  | cons p ps ih =>
      obtain ⟨d, hd, hdc⟩ := hcov p (List.mem_cons_self _ _)
      have ihs := ih (fun q hq => hcov q (List.mem_cons_of_mem _ hq))
      constructor
      · simp [List.filterMap_cons, hd, hdc, ihs.1]
      · simp [List.filterMap_cons, hd, ihs.2]

/-! ## Claim theorems -/

/-- C1: for keyword/vector result lists with unique chunk contents and any
limit `k > 0`, hybrid RRF fusion (i) assigns every content key the sum of
`1/(60+r)` over the lists containing it (`r` its 1-based rank there, `0`
contribution from a list without it), keyed by chunk content; (ii) returns
chunks whose contents are exactly the first `k` keys of the sorted score
dict, with no duplicate entries; the score dict is sorted descending
(iii) and stably, so ties keep first-seen dict order (iv, the entries at
each score value appear exactly as in the insertion-ordered dict); (v) the
output is truncated to `k` entries — `min (2n) k` of them for two
content-disjoint lists of length `n` (vi). -/
theorem c1_rrf_fusion (bm25 vec : List Document) (k : ℕ) (hk : 0 < k)
    (h1 : (bm25.map Document.page_content).Nodup)
    (h2 : (vec.map Document.page_content).Nodup) :
    (∀ key, (lookupKey (fusedMaps bm25 vec).1 key).getD 0
        = listContrib bm25 key + listContrib vec key)
    ∧ (retrieve_hybrid bm25 vec (k : ℤ)).map Document.page_content
        = ((sortDesc (fusedMaps bm25 vec).1).take k).map Prod.fst
    ∧ ((retrieve_hybrid bm25 vec (k : ℤ)).map Document.page_content).Nodup
    ∧ List.Pairwise (fun p q => q.2 ≤ p.2) (sortDesc (fusedMaps bm25 vec).1)
    ∧ (∀ v0 : ℚ,
        (sortDesc (fusedMaps bm25 vec).1).filter (fun p => decide (p.2 = v0))
          = (fusedMaps bm25 vec).1.filter (fun p => decide (p.2 = v0)))
    ∧ (retrieve_hybrid bm25 vec (k : ℤ)).length
        = min (fusedMaps bm25 vec).1.length k
    ∧ ((∀ d ∈ bm25, ∀ e ∈ vec, d.page_content ≠ e.page_content) →
        bm25.length = vec.length →
        (retrieve_hybrid bm25 vec (k : ℤ)).length = min (2 * bm25.length) k) := by
  have hpy : pyTake (sortDesc (fusedMaps bm25 vec).1) (k : ℤ)
      = (sortDesc (fusedMaps bm25 vec).1).take k := by
    rw [pyTake, if_pos (Int.natCast_nonneg k)]
    simp
  have hcov : ∀ p ∈ (sortDesc (fusedMaps bm25 vec).1).take k,
      ∃ d, lookupKey (fusedMaps bm25 vec).2 p.1 = some d
        ∧ d.page_content = p.1 := by
    intro p hp
    have hmem : p ∈ (fusedMaps bm25 vec).1 :=
      (sortDesc_perm (fusedMaps bm25 vec).1).subset
        ((List.take_sublist _ _).subset hp)
    exact fusedMaps_covered bm25 vec p.1 (List.mem_map_of_mem Prod.fst hmem)
  have hshape : retrieve_hybrid bm25 vec (k : ℤ)
      = ((sortDesc (fusedMaps bm25 vec).1).take k).filterMap
          (fun p => lookupKey (fusedMaps bm25 vec).2 p.1) := by
    show ((pyTake (sortDesc (fusedMaps bm25 vec).1) (k : ℤ)).filterMap
      (fun p => lookupKey (fusedMaps bm25 vec).2 p.1)) = _
    rw [hpy]
  have hcontents : (retrieve_hybrid bm25 vec (k : ℤ)).map Document.page_content
      = ((sortDesc (fusedMaps bm25 vec).1).take k).map Prod.fst := by
    rw [hshape]
    exact (filterMap_lookup _ _ hcov).1
  have hlen : (retrieve_hybrid bm25 vec (k : ℤ)).length
      = min (fusedMaps bm25 vec).1.length k := by
    rw [hshape, (filterMap_lookup _ _ hcov).2, List.length_take,
      sortDesc_length, Nat.min_comm]
  refine ⟨fun key => fusedMaps_score bm25 vec key h1 h2, hcontents, ?_,
    sortDesc_sorted _, fun v0 => sortDesc_filter _ v0, hlen, ?_⟩
  · rw [hcontents]
    have hkeys : ((sortDesc (fusedMaps bm25 vec).1).map Prod.fst).Nodup :=
      (List.Perm.nodup_iff
        ((sortDesc_perm (fusedMaps bm25 vec).1).map Prod.fst)).mpr
        (fusedMaps_keys_nodup bm25 vec)
    rw [List.map_take]
    exact List.Nodup.sublist (List.take_sublist _ _) hkeys
  · intro hdis hlen2
    rw [hlen]
    have hkeys := fusedMaps_keys_disjoint bm25 vec h1 h2 hdis
    have : (fusedMaps bm25 vec).1.length = bm25.length + vec.length := by
      have hlm := congrArg List.length hkeys
      simpa using hlm
    rw [this, ← hlen2]
    congr 1
    omega

/-- C1 witness: the fusion theorem applied to the content-disjoint ranked
lists `[docA, docB]` and `[docC, docD]` with limit 3, yielding
`min (2·2) 3 = 3` fused entries. -/
theorem c1_rrf_fusion_witness :
    (([docA, docB].map Document.page_content).Nodup)
    ∧ (([docC, docD].map Document.page_content).Nodup)
    ∧ (0 < 3)
    ∧ (retrieve_hybrid [docA, docB] [docC, docD] ((3 : ℕ) : ℤ)).length
        = min (2 * [docA, docB].length) 3 :=
  ⟨by decide, by decide, by decide,
    (c1_rrf_fusion [docA, docB] [docC, docD] 3 (by decide) (by decide)
      (by decide)).2.2.2.2.2.2 (by decide) (by decide)⟩

/-- C2, counterexample: with the keyword search raising and the vector
search succeeding with `[docA]`, hybrid retrieval propagates the exception
instead of returning the vector results `[docA]` alone, refuting the
claimed degradation. -/
theorem c2_propagation_counterexample :
    retrieve_hybrid_exc (Except.error "keyword search failed")
        (Except.ok [docA]) 5 = Except.error "keyword search failed"
    ∧ retrieve_hybrid_exc (Except.error "keyword search failed")
        (Except.ok [docA]) 5 ≠ Except.ok [docA] := by
  refine ⟨rfl, fun h => ?_⟩
  exact Except.noConfusion h

/-- C2, amended: `_retrieve_hybrid` installs no exception handler, so if the
keyword search raises the exception propagates out of `retrieve` (and the
vector search is never issued), and if the keyword search succeeds but the
vector search raises, that exception propagates; no empty-list degradation
exists. -/
theorem c2_amended_errors_propagate (e : String)
    (vecRes : Except String (List Document)) (bm25 : List Document) (k : ℤ) :
    retrieve_hybrid_exc (Except.error e) vecRes k = Except.error e
    ∧ retrieve_hybrid_exc (Except.ok bm25) (Except.error e) k = Except.error e := by
  exact ⟨rfl, rfl⟩

/-- C3, counterexample: with non-empty evidence, the ambiguous collaborator
reply `"maybe"` (neither a clear yes nor a clear no) is graded
`"irrelevant"`, not the claimed `"relevant"` default. -/
theorem c3_ambiguous_counterexample :
    relevanceGrade "q" [docA] (Except.ok "maybe") = "irrelevant"
    ∧ relevanceGrade "q" [docA] (Except.ok "maybe") ≠ "relevant" := by
  constructor
  · rfl
  · decide

/-- C3, amended: with non-empty evidence the Evidence Grader returns
`relevant` exactly when the collaborator reply (stripped and lowercased)
contains `"yes"`, or when the collaborator errors (fail-open); every other
reply — explicit negatives and ambiguous replies alike — yields
`irrelevant`. -/
theorem c3_amended_grading (q : String) (docs : List Document)
    (hne : docs ≠ []) :
    (∀ e, relevanceGrade q docs (Except.error e) = "relevant")
    ∧ (∀ content, containsStr (pyLower (pyStrip content)) "yes" = true →
        relevanceGrade q docs (Except.ok content) = "relevant")
    ∧ (∀ content, containsStr (pyLower (pyStrip content)) "yes" = false →
        relevanceGrade q docs (Except.ok content) = "irrelevant") := by
  have hempty : docs.isEmpty = false := by
    cases docs with
    | nil => exact absurd rfl hne
    | cons d ds => rfl
  refine ⟨fun e => ?_, fun content h => ?_, fun content h => ?_⟩
  · simp [relevanceGrade, hempty]
  · simp [relevanceGrade, hempty, h]
  · simp [relevanceGrade, hempty, h]

/-- C3 witness: the amended grading theorem applied to the non-empty
evidence list `[docA]`. -/
theorem c3_amended_grading_witness :
    ([docA] : List Document) ≠ []
    ∧ relevanceGrade "q" [docA] (Except.error "judge down") = "relevant" :=
  ⟨by decide, (c3_amended_grading "q" [docA] (by decide)).1 "judge down"⟩

/-- C5: with the web-fallback flag already set, a `hallucinated` verdict
sends the controller to `END` (never to `plan_research`); with the flag
clear, the same verdict sends it to `plan_research`. -/
theorem c5_fallback_bound (st : GState)
    (h : st.hallucination_grade = "hallucinated") :
    (st.is_web = true →
      afterCheckTarget st = Node.done ∧ afterCheckTarget st ≠ Node.plan_research)
    ∧ (st.is_web = false → afterCheckTarget st = Node.plan_research) := by
  have hg : decide_after_check st = (if st.is_web then "end" else "plan_research") := by
    simp [decide_after_check, h]
  constructor
  · intro hw
    rw [hw] at hg
    simp [afterCheckTarget, hg]
  · intro hw
    rw [hw] at hg
    simp at hg
    simp [afterCheckTarget, hg]

/-- C5 witness: the fallback-bound theorem applied to `stHalluWeb`. -/
theorem c5_fallback_bound_witness :
    stHalluWeb.hallucination_grade = "hallucinated"
    ∧ afterCheckTarget stHalluWeb = Node.done :=
  ⟨rfl, ((c5_fallback_bound stHalluWeb rfl).1 rfl).1⟩

/-- C6, counterexample: the refusal answer `"I cannot answer based on the
context provided."` is classified `grounded`, not `hallucinated`, when the
evidence list at the check is empty — the answer does contain a refusal
phrase, so the claim's unconditional reading fails. -/
theorem c6_refusal_counterexample :
    refusal_indicators.any (fun ind =>
        containsStr (pyLower "I cannot answer based on the context provided.") ind) = true
    ∧ check_hallucination_fn "I cannot answer based on the context provided."
        [] (Except.ok "yes") = ("grounded", 0) := by
  constructor
  · decide
  · rfl

/-- C6, amended: whenever the evidence list is non-empty, an answer whose
lowercase text contains one of the fixed refusal phrases is classified
`hallucinated` by the lexical fast path, with zero judgment-collaborator
calls, whatever the collaborator would have replied. -/
theorem c6_refusal_fast_path (answer : String) (documents : List Document)
    (resp : Except String String) (hne : documents ≠ [])
    (href : refusal_indicators.any
      (fun ind => containsStr (pyLower answer) ind) = true) :
    check_hallucination_fn answer documents resp = ("hallucinated", 0) := by
  have hempty : documents.isEmpty = false := by
    cases documents with
    | nil => exact absurd rfl hne
    | cons d ds => rfl
  simp [check_hallucination_fn, hempty, href]

/-- C6 witness: the fast-path theorem applied to the spec's refusal answer
with one evidence chunk and a judge that would have said yes. -/
theorem c6_refusal_fast_path_witness :
    ([docA] : List Document) ≠ []
    ∧ refusal_indicators.any (fun ind =>
        containsStr (pyLower "I cannot answer based on the context provided.") ind) = true
    ∧ check_hallucination_fn "I cannot answer based on the context provided."
        [docA] (Except.ok "yes") = ("hallucinated", 0) :=
  ⟨by decide, by decide,
    c6_refusal_fast_path "I cannot answer based on the context provided."
      [docA] (Except.ok "yes") (by decide) (by decide)⟩

/-- C7: with no keyword index, `retrieve` takes the semantic-only path and
keeps exactly the results whose score reaches the floor: the spec's
`[0.9, 0.6, 0.5]` example at the default floor `0.7` keeps exactly one, an
all-below list yields `[]`, membership in the output is exactly "some score
at or above the floor", and the dispatch ignores `k` and the hybrid
inputs. -/
theorem c7_similarity_floor :
    retrieve_fn none [(docA, 9/10), (docB, 6/10), (docC, 5/10)] []
        default_similarity_threshold 5 = [docA]
    ∧ (∀ results : List (Document × ℚ),
        (∀ p ∈ results, p.2 < default_similarity_threshold) →
        retrieve_semantic results default_similarity_threshold = [])
    ∧ (∀ (results : List (Document × ℚ)) (t : ℚ) (d : Document),
        d ∈ retrieve_semantic results t ↔ ∃ s, (d, s) ∈ results ∧ t ≤ s)
    ∧ (∀ scored vector_results t k,
        retrieve_fn none scored vector_results t k = retrieve_semantic scored t) := by
  refine ⟨by norm_num [retrieve_fn, retrieve_semantic, default_similarity_threshold,
      List.filter], fun results h => ?_, fun results t d => ?_, fun _ _ _ _ => rfl⟩
  · have : results.filter (fun p => decide (default_similarity_threshold ≤ p.2)) = [] := by
      apply List.filter_eq_nil_iff.mpr
      intro p hp
      simpa using not_le.mpr (h p hp)
    simp [retrieve_semantic, this]
  · constructor
    · intro hd
      rcases List.mem_map.mp hd with ⟨p, hp, hfst⟩
      rcases List.mem_filter.mp hp with ⟨hmem, hcond⟩
      exact ⟨p.2, by simpa [← hfst] using hmem, by simpa using hcond⟩
    · rintro ⟨s, hmem, hle⟩
      exact List.mem_map.mpr ⟨(d, s),
        List.mem_filter.mpr ⟨hmem, by simpa using hle⟩, rfl⟩

/-- C7 witness: the similarity-floor theorem's all-below branch applied to
the concrete singleton `[(docB, 1/2)]`. -/
theorem c7_similarity_floor_witness :
    (∀ p ∈ [(docB, (1/2 : ℚ))], p.2 < default_similarity_threshold)
    ∧ retrieve_semantic [(docB, (1/2 : ℚ))] default_similarity_threshold = [] :=
  ⟨by norm_num [default_similarity_threshold],
    c7_similarity_floor.2.1 [(docB, (1/2 : ℚ))]
      (by norm_num [default_similarity_threshold])⟩

/-- C8, counterexample: the merge invoked with the negative limit `-1` on
the content-disjoint singleton lists `[docA]` and `[docB]` returns `[docA]`
— Python's `sorted_docs[:k]` with a negative `k` drops the last `|k|`
entries rather than returning an empty result. -/
theorem c8_negative_limit_counterexample :
    retrieve_hybrid [docA] [docB] (-1) ≠ [] := by
  have hval : retrieve_hybrid [docA] [docB] (-1) = [docA] := by
    show ((pyTake (sortDesc (fusedMaps [docA] [docB]).1) (-1)).filterMap
      (fun p => lookupKey (fusedMaps [docA] [docB]).2 p.1)) = [docA]
    norm_num [fusedMaps, processBM25, processVec, bumpScore, hasKey, setDoc,
      setDocIfAbsent, sortDesc, insertDesc, pyTake, lookupKey, docA, docB,
      contrib, rrf_c, List.filterMap_cons, List.filterMap_nil]
  rw [hval]
  exact fun h => List.noConfusion h

/-- C8, amended: the merge's final `sorted_docs[:k]` is a Python slice, so
limit `0` returns the empty result, while a negative limit `k` returns the
fused entries with the last `|k|` dropped (all of them only when `|k|` is at
least the number of fused keys); the merge itself is a total pure function
with no other failure modes and no side effects. -/
theorem c8_limit_is_python_slice (bm25 vec : List Document) :
    retrieve_hybrid bm25 vec 0 = []
    ∧ (∀ k : ℤ, k < 0 → (retrieve_hybrid bm25 vec k).length
        = (fusedMaps bm25 vec).1.length - (-k).toNat) := by
  constructor
  · show ((pyTake (sortDesc (fusedMaps bm25 vec).1) 0).filterMap
      (fun p => lookupKey (fusedMaps bm25 vec).2 p.1)) = []
    simp [pyTake]
  · intro k hk
    show ((pyTake (sortDesc (fusedMaps bm25 vec).1) k).filterMap
      (fun p => lookupKey (fusedMaps bm25 vec).2 p.1)).length = _
    have hneg : ¬(0 ≤ k) := not_le.mpr hk
    rw [pyTake, if_neg hneg]
    have hcov : ∀ p ∈ (sortDesc (fusedMaps bm25 vec).1).take
        ((sortDesc (fusedMaps bm25 vec).1).length - (-k).toNat),
        ∃ d, lookupKey (fusedMaps bm25 vec).2 p.1 = some d
          ∧ d.page_content = p.1 := by
      intro p hp
      have hmem : p ∈ (fusedMaps bm25 vec).1 :=
        (sortDesc_perm (fusedMaps bm25 vec).1).subset
          ((List.take_sublist _ _).subset hp)
      exact fusedMaps_covered bm25 vec p.1 (List.mem_map_of_mem Prod.fst hmem)
    rw [(filterMap_lookup _ _ hcov).2, List.length_take, sortDesc_length]
    omega

/-- C8 witness: the amended slice theorem applied at the concrete limit `-1`
on the two singleton lists, dropping exactly the last fused entry. -/
theorem c8_limit_is_python_slice_witness :
    ((-1 : ℤ) < 0)
    ∧ (retrieve_hybrid [docA] [docB] (-1)).length
        = (fusedMaps [docA] [docB]).1.length - ((-(-1 : ℤ)).toNat) :=
  ⟨by decide, (c8_limit_is_python_slice [docA] [docB]).2 (-1) (by decide)⟩

/-- C9: the Research Planner returns at most 3 sub-queries parsed from the
collaborator reply, and on collaborator failure returns exactly
`[question]`, which is never empty. -/
theorem c9_planner_bounds (question : String) :
    (∀ content, (generate_queries question (Except.ok content)).length ≤ 3)
    ∧ (∀ e, generate_queries question (Except.error e) = [question])
    ∧ (∀ e, generate_queries question (Except.error e) ≠ []) := by
  refine ⟨fun content => ?_, fun e => rfl, fun e => by simp [generate_queries]⟩
  simp [generate_queries]

theorem runN_succ (env : Env) (p : Node × GState) (n : ℕ) :
    runN env p (n + 1) = stepNode env (runN env p n).1 (runN env p n).2 := by
  induction n generalizing p with
  | zero => rfl
  | succ n ih =>
      show runN env (stepNode env p.1 p.2) (n + 1) = _
      rw [ih (stepNode env p.1 p.2)]
      rfl

theorem runN_done (env : Env) (st : GState) (n : ℕ) :
    runN env (Node.done, st) n = (Node.done, st) := by
  induction n with
  | zero => rfl
  | succ n ih => exact ih

theorem runN_add (env : Env) (p : Node × GState) (a b : ℕ) :
    runN env p (a + b) = runN env (runN env p a) b := by
  induction a generalizing p with
  | zero =>
      rw [Nat.zero_add]
      rfl
  | succ a ih =>
      have harg : a + 1 + b = (a + b) + 1 := by omega
      rw [harg]
      show runN env (stepNode env p.1 p.2) (a + b) = _
      exact ih (stepNode env p.1 p.2)

/-- C4: when both retrieval attempts come back empty or graded irrelevant
(either way the grade step clears the evidence) and with the hardcoded
`max_retries = 1`, the workflow's first six nodes are exactly
Retrieve, GradeDocuments, TransformQuery, Retrieve, GradeDocuments,
PlanResearch; TransformQuery executes only at step 2, never a second time;
and each TransformQuery execution appends the fixed broadening phrase
`" overview details"` and increments `retry_count` by one. -/
theorem c4_retry_bound (env : Env) (q : String)
    (h1 : relevanceGrade q (env.retrieveDocs q)
        (env.gradeResp q (env.retrieveDocs q)) = "irrelevant")
    (h2 : relevanceGrade (q ++ " overview details")
        (env.retrieveDocs (q ++ " overview details"))
        (env.gradeResp (q ++ " overview details")
          (env.retrieveDocs (q ++ " overview details"))) = "irrelevant") :
    (List.range 6).map (nodeAt env q)
        = [Node.retrieve, Node.grade_documents, Node.transform_query,
           Node.retrieve, Node.grade_documents, Node.plan_research]
    ∧ (∀ m : ℕ, m ≠ 2 → nodeAt env q m ≠ Node.transform_query)
    ∧ (∀ st : GState,
        (transform_query_node st).retry_count = st.retry_count + 1
        ∧ (transform_query_node st).question
            = st.question ++ " overview details") := by
  have key1 : runN env (Node.retrieve, initState q) 1
      = (Node.grade_documents,
          ⟨q, env.retrieveDocs q, 0, "", [], [], false, ""⟩) := rfl
  have key2 : runN env (Node.retrieve, initState q) 2
      = (Node.transform_query, ⟨q, [], 0, "", [], [], false, ""⟩) := by
    rw [runN_succ, key1]
    simp [stepNode, h1, gradeEdgeTarget, decide_to_generate, max_retries]
  have key3 : runN env (Node.retrieve, initState q) 3
      = (Node.retrieve,
          ⟨q ++ " overview details", [], 1, "", [], [], false, ""⟩) := by
    rw [runN_succ, key2]
    rfl
  have key4 : runN env (Node.retrieve, initState q) 4
      = (Node.grade_documents,
          ⟨q ++ " overview details",
            env.retrieveDocs (q ++ " overview details"), 1, "", [], [],
            false, ""⟩) := by
    rw [runN_succ, key3]
    rfl
  have key5 : runN env (Node.retrieve, initState q) 5
      = (Node.plan_research,
          ⟨q ++ " overview details", [], 1, "", [], [], false, ""⟩) := by
    rw [runN_succ, key4]
    simp [stepNode, h2, gradeEdgeTarget, decide_to_generate, max_retries]
  have key6 : runN env (Node.retrieve, initState q) 6
      = (Node.web_search,
          ⟨q ++ " overview details", [], 1, "", [],
            generate_queries (q ++ " overview details")
              (env.planResp (q ++ " overview details")), false, ""⟩) := by
    rw [runN_succ, key5]
    rfl
  have key7 : (runN env (Node.retrieve, initState q) 7).1
      = Node.synthesize_research := by
    rw [runN_succ, key6]
    rfl
  have key8 : (runN env (Node.retrieve, initState q) 8).1 = Node.done := by
    rw [runN_succ]
    obtain ⟨st7, h7⟩ :
        ∃ st, runN env (Node.retrieve, initState q) 7
          = (Node.synthesize_research, st) := by
      refine ⟨(runN env (Node.retrieve, initState q) 7).2, ?_⟩
      rw [← key7]
    rw [h7]
    rfl
  refine ⟨?_, ?_, fun st => ⟨rfl, rfl⟩⟩
  · have hr : List.range 6 = [0, 1, 2, 3, 4, 5] := rfl
    rw [hr]
    simp only [List.map_cons, List.map_nil, nodeAt]
    rw [key1, key2, key3, key4, key5]
    rfl
  · intro m hm
    rcases m with _ | _ | _ | _ | _ | _ | _ | _ | m
    · intro h
      simp only [nodeAt] at h
      exact Node.noConfusion h
    · intro h
      rw [nodeAt, key1] at h
      exact Node.noConfusion h
    · exact absurd rfl hm
    · intro h
      rw [nodeAt, key3] at h
      exact Node.noConfusion h
    · intro h
      rw [nodeAt, key4] at h
      exact Node.noConfusion h
    · intro h
      rw [nodeAt, key5] at h
      exact Node.noConfusion h
    · intro h
      rw [nodeAt, key6] at h
      exact Node.noConfusion h
    · intro h
      rw [nodeAt] at h
      rw [key7] at h
      exact Node.noConfusion h
    · intro h
      rw [nodeAt] at h
      have hsplit : m + 1 + 1 + 1 + 1 + 1 + 1 + 1 + 1 = 8 + m := by omega
      rw [hsplit, runN_add] at h
      obtain ⟨st8, h8⟩ :
          ∃ st, runN env (Node.retrieve, initState q) 8 = (Node.done, st) := by
        refine ⟨(runN env (Node.retrieve, initState q) 8).2, ?_⟩
        rw [← key8]
      rw [h8, runN_done] at h
      exact Node.noConfusion h

/-- C4 witness: the retry-bound theorem applied to the concrete environment
`envEmpty`, whose retrieval always returns no documents. -/
theorem c4_retry_bound_witness :
    relevanceGrade "q" (envEmpty.retrieveDocs "q")
        (envEmpty.gradeResp "q" (envEmpty.retrieveDocs "q")) = "irrelevant"
    ∧ relevanceGrade ("q" ++ " overview details")
        (envEmpty.retrieveDocs ("q" ++ " overview details"))
        (envEmpty.gradeResp ("q" ++ " overview details")
          (envEmpty.retrieveDocs ("q" ++ " overview details"))) = "irrelevant"
    ∧ (List.range 6).map (nodeAt envEmpty "q")
        = [Node.retrieve, Node.grade_documents, Node.transform_query,
           Node.retrieve, Node.grade_documents, Node.plan_research] :=
  ⟨by decide, by decide,
    (c4_retry_bound envEmpty "q" (by decide) (by decide)).1⟩

/-- C10: with an empty evidence list at the hallucination check, the answer
is classified `grounded` with zero judgment-collaborator calls before the
refusal scan can run — whatever the answer text and whatever the
collaborator would have replied. -/
theorem c10_empty_evidence_grounded (answer : String)
    (resp : Except String String) :
    check_hallucination_fn answer [] resp = ("grounded", 0) := rfl

end RagCore
